import Mathlib

/-!
Verification of the genlayout generator of go-winmd (cmd/genlayout/main.go).

The generator consumes the schema parsed from tables.go (a list of
`tableInfo` values, one per table struct, each with a list of columns) and
derives, per table: a numeric catalog of table codes (writeTableValues), a
record-width formula over a runtime layout (writeTableWidth), a decode plan
(writeTableEncoding), a coded-index dispatch over exported tables
(writeCodedTable) and the accessor registry (writeTablesStruct).

This file embeds those derivations shallowly: the emitted Go text is
modelled by its meaning (term lists, step lists, catalog values), Go's
uint8 arithmetic by naturals reduced modulo 2^8, the panic on an empty
schema and the fatal error on an unsupported fixed-int size by an
`Except GenFault` result.
-/

namespace GenLayout

/-- The column kinds of the schema model, the `columnType` values that
`writeTableWidth` and `writeTableEncoding` in main.go dispatch on:
coded index, table index, row slice, String/GUID/Blob heap index and
fixed-width unsigned integer. -/
inductive ColumnType where
  | codedIndex
  | index
  | slice
  | string
  | guid
  | blob
  | uint
  deriving DecidableEq

/-- One column of a table struct, as consumed by the writers in main.go:
its field name, kind, coded-scheme name (for `codedIndex`), referenced
table constant (for `index`/`slice`), byte size (for `uint`) and the Go
type name (used only to wrap flag-typed integer reads). -/
structure column where
  name : String
  columnType : ColumnType
  coded : String
  tableName : String
  size : Nat
  typeName : String
  deriving DecidableEq

/-- One parsed table: the struct name, the generated table constant name,
the table code from the `@table=` doc line (a Go uint8, hence in [0,255]),
whether the struct is exported, and its columns in declaration order. -/
structure tableInfo where
  name : String
  tableName : String
  code : Nat
  exported : Bool
  fields : List column
  deriving DecidableEq

/-- The runtime layout the generated code receives (`la *layout`): the
resolved byte widths of coded indices (by scheme), simple table indices
(by table constant), and of String/GUID/Blob heap indices. -/
structure layout where
  codedSizes : String → Nat
  simpleSizes : String → Nat
  stringSize : Nat
  guidSize : Nat
  blobSize : Nat

/-- Generation failures of main.go that abort the run before zlayout.go is
written: the index-out-of-range panic of `writeTableValues` on an empty
schema (`sorted[len(sorted)-1]`), and the `log.Fatalf` of
`writeTableEncoding` on a fixed-int size other than 1, 2 or 4. -/
inductive GenFault where
  | emptySchemaPanic
  | unsupportedUintSize (size : Nat)
  deriving DecidableEq

/-- Decides whether an `Except` result is a success. -/
def isSuccess {α : Type} : Except GenFault α → Bool
  | .ok _ => true
  | .error _ => false

/-! ## Catalog Builder: writeTableValues -/

/-- The (constant name, code) pair a table contributes to the catalog. -/
def codePair (t : tableInfo) : String × Nat := (t.tableName, t.code)

/-- The comparison `writeTableValues` sorts catalog pairs by: the code. -/
def byCode (a b : String × Nat) : Prop := a.2 ≤ b.2

instance : DecidableRel byCode := fun a b => Nat.decLe a.2 b.2

instance : IsTotal (String × Nat) byCode := ⟨fun a b => Nat.le_total a.2 b.2⟩

instance : IsTrans (String × Nat) byCode := ⟨fun _ _ _ h h2 => Nat.le_trans h h2⟩

/-- The code-sorted catalog pairs; models the `sort.Slice` call of
`writeTableValues` (any correct sort: a by-code-sorted permutation). -/
def sortedPairs (ts : List tableInfo) : List (String × Nat) :=
  List.insertionSort byCode (ts.map codePair)

/-- The catalog emitted by `writeTableValues`: the sorted constant
definitions, `tableMax` (the last sorted code plus one) and
`tableNone = tableMax`. -/
structure Catalog where
  pairs : List (String × Nat)
  tableMax : Nat
  tableNone : Nat
  deriving DecidableEq

/-- The Catalog Builder, `writeTableValues`: sorts the (name, code) pairs
by code and takes `tableMax` from the last element. On an empty schema the
source indexes `sorted[len(sorted)-1]`, an index-out-of-range panic,
modelled by `GenFault.emptySchemaPanic`. No uniqueness or range check is
performed on the codes. -/
def catalogBuilder (ts : List tableInfo) : Except GenFault Catalog :=
  match (sortedPairs ts).getLast? with
  | none => .error .emptySchemaPanic
  | some last => .ok ⟨sortedPairs ts, last.2 + 1, last.2 + 1⟩

/-! ## Coded-Index Dispatch Builder: writeCodedTable -/

/-- The generated `CodedTable` switch: cases over the exported tables in
schema order, each mapping the table tag to that table's accessor (here
its struct name); the `default` arm returns nil, modelled as `none`. -/
def codedTable : List tableInfo → Nat → Option String
  | [], _ => none
  | t :: ts, tag =>
    if t.exported = true ∧ t.code = tag then some t.name else codedTable ts tag

/-! ## Registry Builder: writeTablesStruct -/

/-- The `initTables` sequence emitted by `writeTablesStruct`: one
`t.X = newTable[X](t, tableX)` line per exported table, in schema order,
wiring the accessor name to the table constant (whose value is the code). -/
def registryInit : List tableInfo → List (String × Nat)
  | [] => []
  | t :: ts =>
    if t.exported = true then (t.name, t.code) :: registryInit ts
    else registryInit ts

/-! ## Width Formula Builder: writeTableWidth -/

/-- One term of a generated width expression: a coded-index width
`la.codedSizes[codedX]`, a simple index width `la.simpleSizes[tableX]`,
`la.stringSize`, `la.guidSize`, `la.blobSize`, or an integer constant. -/
inductive WidthTerm where
  | coded (scheme : String)
  | simple (table : String)
  | string
  | guid
  | blob
  | const (n : Nat)
  deriving DecidableEq

/-- The width term `writeTableWidth` emits for a column, by its kind
(the `switch c.columnType` at main.go lines 137-150; `index` and `slice`
share one case). -/
def widthTermOf (c : column) : WidthTerm :=
  match c.columnType with
  | .codedIndex => .coded c.coded
  | .index => .simple c.tableName
  | .slice => .simple c.tableName
  | .string => .string
  | .guid => .guid
  | .blob => .blob
  | .uint => .const c.size

/-- The width term list of a table: one term per column, in column order
(the `width` slice of `writeTableWidth`). -/
def widthTerms (t : tableInfo) : List WidthTerm := t.fields.map widthTermOf

/-- Evaluation of one width term at a runtime layout. -/
def evalTerm (la : layout) : WidthTerm → Nat
  | .coded s => la.codedSizes s
  | .simple tn => la.simpleSizes tn
  | .string => la.stringSize
  | .guid => la.guidSize
  | .blob => la.blobSize
  | .const n => n

/-- The abstract total record width of a table at a layout: the plain sum
of the per-column width terms, in column order. -/
def widthSum (t : tableInfo) (la : layout) : Nat :=
  ((widthTerms t).map (evalTerm la)).sum

/-- The value computed by the generated `width` method: the emitted
expression joins the terms with `+` and the method returns uint8, so each
addition wraps modulo 2^8. -/
def genWidth (t : tableInfo) (la : layout) : Nat :=
  ((widthTerms t).map (evalTerm la)).foldl (fun acc w => (acc + w) % 256) 0

/-- The width term as the specification words it, for comparison with
`widthTermOf`: FixedInt contributes the constant size, HeapIndex the
width of its heap, TableRef the index width of the target table, CodedRef
the coded width of its scheme, and RowRange the same term as a TableRef
to its target. The spec kinds map to the source kinds as FixedInt = uint,
HeapIndex = string/guid/blob, TableRef = index, CodedRef = codedIndex,
RowRange = slice. -/
def specWidthTerm (c : column) : WidthTerm :=
  match c.columnType with
  | .uint => .const c.size
  | .string => .string
  | .guid => .guid
  | .blob => .blob
  | .index => .simple c.tableName
  | .codedIndex => .coded c.coded
  | .slice => .simple c.tableName

/-! ## Decode Plan Builder: writeTableEncoding -/

/-- One decode step of a generated `decode` method: which primitive read
of the record reader it performs (`r.index`, `r.blob`, `r.guid`,
`r.string`, `r.uint8/16/32`, `r.coded`, `r.slice`). A flag-typed integer
column only wraps the read in the flag type and performs the same-width
read, so it is modelled by the same `uint` step. -/
inductive DecodeStep where
  | index (table : String)
  | blob
  | guid
  | string
  | uint (size : Nat)
  | coded (scheme : String)
  | slice (owner : String) (target : String)
  deriving DecidableEq

/-- The decode step `writeTableEncoding` emits for a column of a table
whose constant name is `owner`. A `uint` column of size other than 1, 2
or 4 hits `log.Fatalf("unsupported uint size %d")`, modelled as
`GenFault.unsupportedUintSize`. -/
def decodeStepOf (owner : String) (f : column) : Except GenFault DecodeStep :=
  match f.columnType with
  | .index => .ok (.index f.tableName)
  | .blob => .ok .blob
  | .guid => .ok .guid
  | .string => .ok .string
  | .uint =>
    if f.size = 1 ∨ f.size = 2 ∨ f.size = 4 then .ok (.uint f.size)
    else .error (.unsupportedUintSize f.size)
  | .codedIndex => .ok (.coded f.coded)
  | .slice => .ok (.slice owner f.tableName)

/-- The decode steps for a column list, in column order; the first
unsupported column aborts, as the `log.Fatalf` in the source loop does. -/
def decodePlanList (owner : String) : List column → Except GenFault (List DecodeStep)
  | [] => .ok []
  | f :: fs =>
    match decodeStepOf owner f with
    | .error e => .error e
    | .ok s =>
      match decodePlanList owner fs with
      | .error e => .error e
      | .ok ss => .ok (s :: ss)

/-- The decode plan of a table: one step per column, in column order. -/
def tablePlan (t : tableInfo) : Except GenFault (List DecodeStep) :=
  decodePlanList t.tableName t.fields

/-- The decode plans of all tables, in schema order. -/
def plansOf : List tableInfo → Except GenFault (List (String × List DecodeStep))
  | [] => .ok []
  | t :: ts =>
    match tablePlan t with
    | .error e => .error e
    | .ok ps =>
      match plansOf ts with
      | .error e => .error e
      | .ok rest => .ok ((t.name, ps) :: rest)

/-- The artifacts of one generation run, the logical content of
zlayout.go: the catalog, the per-table width term lists, the registry
wiring and the per-table decode plans. -/
structure Artifacts where
  catalog : Catalog
  widths : List (String × List WidthTerm)
  registry : List (String × Nat)
  plans : List (String × List DecodeStep)
  deriving DecidableEq

/-- One generation run, following `main`: `writeTableValues` runs (and can
panic on an empty schema) before `writeTableEncoding` runs (and can abort
on an unsupported fixed-int size); only if every writer succeeds is
zlayout.go written. -/
def generate (ts : List tableInfo) : Except GenFault Artifacts :=
  match catalogBuilder ts with
  | .error e => .error e
  | .ok cat =>
    match plansOf ts with
    | .error e => .error e
    | .ok plans =>
      .ok ⟨cat, ts.map fun t => (t.name, widthTerms t), registryInit ts, plans⟩

/-! ## The record cursor

The `recordReader` primitives the generated `decode` methods call live in
the winmd package, outside this generator's source. -/

/-- A sequential record cursor: position, record length and the sticky
error flag (`r.err`). -/
structure Cursor where
  pos : Nat
  len : Nat
  err : Bool
  deriving DecidableEq

/-- Modelled from the spec: the byte width a `recordReader` primitive
read consumes, resolved by the same layout as the width formula
(heap reads consume that heap's index width, index and slice reads the
target table's index width, coded reads the scheme's coded width, fixed
reads their size). The reader implementations are in the winmd package,
absent from src/. -/
def stepWidth (la : layout) : DecodeStep → Nat
  | .index tn => la.simpleSizes tn
  | .blob => la.blobSize
  | .guid => la.guidSize
  | .string => la.stringSize
  | .uint n => n
  | .coded s => la.codedSizes s
  | .slice _ tn => la.simpleSizes tn

/-- Modelled from the spec: one primitive read against the cursor. After
an error the reader is a no-op; a read past the record length sets the
sticky error and does not advance; otherwise the cursor advances by
exactly the read's width. -/
def applyStep (la : layout) (s : DecodeStep) (c : Cursor) : Cursor :=
  if c.err then c
  else if c.pos + stepWidth la s ≤ c.len then ⟨c.pos + stepWidth la s, c.len, false⟩
  else ⟨c.pos, c.len, true⟩

/-- Application of a decode plan: the steps run strictly in order. -/
def runPlan (la : layout) (ps : List DecodeStep) (c : Cursor) : Cursor :=
  ps.foldl (fun acc s => applyStep la s acc) c

/-- The reads of a generated `decode` method with the per-field
assignments: each step assigns its field (abstracted by the offset the
read started at) and the cursor advances; assignments happen whether or
not the sticky error is set, exactly as the generated method body does. -/
def runReads (la : layout) : List DecodeStep → Cursor → List Nat × Cursor
  | [], c => ([], c)
  | s :: ss, c =>
    let out := runReads la ss (applyStep la s c)
    (c.pos :: out.1, out.2)

/-- The generated `decode` method: performs all field reads, then
`return r.err` — the assignments together with the cursor's final error
state. -/
def decodeMethod (la : layout) (ps : List DecodeStep) (c : Cursor) : List Nat × Bool :=
  ((runReads la ps c).1, (runReads la ps c).2.err)

/-- Modelled from the spec: the winmd caller of `decode` (absent from
src/) discards the half-built record when `decode` returns an error, so a
record is exposed only on a fully successful decode. -/
def readRecord (la : layout) (ps : List DecodeStep) (c : Cursor) : Option (List Nat) :=
  if (decodeMethod la ps c).2 = true then none else some (decodeMethod la ps c).1

/-! ## Concrete schemas and layouts used to instantiate the theorems -/

/-- A 2-byte fixed-width flag column. -/
def colU2 : column := ⟨"Flags", .uint, "", "", 2, "flags.TypeAttributes"⟩

/-- A fixed-width column of the unsupported size 3. -/
def colU3 : column := ⟨"Odd", .uint, "", "", 3, "uint32"⟩

/-- A String heap index column. -/
def colStr : column := ⟨"Name", .string, "", "", 0, "String"⟩

/-- A table index column referencing tableTypeDef. -/
def colRef : column := ⟨"Extends", .index, "", "tableTypeDef", 0, "Index"⟩

/-- An exported table with code 5. -/
def tA5 : tableInfo := ⟨"ModuleA", "tableModuleA", 5, true, [colU2]⟩

/-- A second exported table with the same code 5. -/
def tB5 : tableInfo := ⟨"ModuleB", "tableModuleB", 5, true, [colU2]⟩

/-- An exported three-column table with code 3. -/
def tT3 : tableInfo := ⟨"TypeDef", "tableTypeDef", 3, true, [colU2, colStr, colRef]⟩

/-- A table with a fixed-int column of the unsupported size 3. -/
def tBad : tableInfo := ⟨"OddTable", "tableOdd", 1, true, [colU3]⟩

/-- An exported table with code 7 and no columns. -/
def tM7 : tableInfo := ⟨"MethodDef", "tableMethodDef", 7, true, []⟩

/-- An exported table with code 3 and no columns. -/
def tF3 : tableInfo := ⟨"FieldDef", "tableFieldDef", 3, true, []⟩

/-- A non-exported (internal) table with code 9. -/
def tI9 : tableInfo := ⟨"InternalT", "tableInternal", 9, false, []⟩

/-- An exported table with two String heap columns. -/
def tWide : tableInfo := ⟨"Wide", "tableWide", 0, true, [colStr, colStr]⟩

/-- A small layout: all heap and index widths of 2 or 4 bytes. -/
def laSmall : layout := ⟨fun _ => 4, fun _ => 2, 2, 4, 2⟩

/-- A layout whose String heap index width is 128 bytes. -/
def laWrap : layout := ⟨fun _ => 4, fun _ => 2, 128, 4, 2⟩

/-! ## Helper lemmas -/

/-- Folding wrapped byte additions from an in-range accumulator computes
the plain sum reduced modulo 2^8. -/
theorem foldl_mod256 (l : List Nat) :
    ∀ acc, acc < 256 → l.foldl (fun a w => (a + w) % 256) acc = (acc + l.sum) % 256 := by
  induction l with
  | nil => intro acc h; simp [Nat.mod_eq_of_lt h]
  | cons x xs ih =>
    intro acc h
    rw [List.foldl_cons, List.sum_cons, ih _ (Nat.mod_lt _ (by omega)),
      Nat.mod_add_mod, Nat.add_assoc]

/-- The width term emitted by the Width Formula Builder coincides with the
term the specification assigns to the column's kind. -/
theorem widthTermOf_eq_spec (c : column) : widthTermOf c = specWidthTerm c := by
  cases hc : c.columnType <;> simp [widthTermOf, specWidthTerm, hc]

/-- A decode step that builds successfully consumes exactly the width
term the Width Formula Builder assigns to the same column. -/
theorem stepOf_width (la : layout) (ow : String) (f : column) (s : DecodeStep)
    (h : decodeStepOf ow f = .ok s) :
    stepWidth la s = evalTerm la (widthTermOf f) := by
  cases hc : f.columnType <;> simp only [decodeStepOf, hc] at h
  case uint =>
    split at h
    · injection h with h1
      subst h1
      simp [stepWidth, widthTermOf, hc, evalTerm]
    · exact absurd h (by simp)
  all_goals
    injection h with h1
    subst h1
    simp [stepWidth, widthTermOf, hc, evalTerm]

/-- A successful decode plan pairs the columns with their steps, in
order. -/
theorem planList_forall₂ (ow : String) :
    ∀ (fs : List column) (ps : List DecodeStep),
      decodePlanList ow fs = .ok ps →
      List.Forall₂ (fun f s => decodeStepOf ow f = .ok s) fs ps := by
  intro fs
  induction fs with
  | nil =>
    intro ps h
    simp only [decodePlanList] at h
    injection h with h1
    subst h1
    exact List.Forall₂.nil
  | cons f fs ih =>
    intro ps h
    cases h1 : decodeStepOf ow f with
    | error e =>
      simp only [decodePlanList, h1] at h
      exact Except.noConfusion h
    | ok s =>
      cases h2 : decodePlanList ow fs with
      | error e =>
        simp only [decodePlanList, h1, h2] at h
        exact Except.noConfusion h
      | ok ss =>
        simp only [decodePlanList, h1, h2] at h
        injection h with h3
        subst h3
        exact List.Forall₂.cons h1 (ih ss h2)

/-- The step widths of a successful plan match, in order, the evaluated
width terms of the columns. -/
theorem plan_widths (la : layout) (ow : String) (fs : List column) (ps : List DecodeStep)
    (h : decodePlanList ow fs = .ok ps) :
    ps.map (stepWidth la) = fs.map fun f => evalTerm la (widthTermOf f) := by
  have hf := planList_forall₂ ow fs ps h
  clear h
  induction hf with
  | nil => rfl
  | cons h1 h2 ih => simp [List.map_cons, stepOf_width la ow _ _ h1, ih]

/-- The total step width of a successful table plan is the table's
abstract width. -/
theorem plan_sum_width (la : layout) (t : tableInfo) (ps : List DecodeStep)
    (h : tablePlan t = .ok ps) :
    (ps.map (stepWidth la)).sum = widthSum t la := by
  rw [plan_widths la t.tableName t.fields ps h, widthSum, widthTerms, List.map_map]
  rfl

/-- Unfolding one step of plan application. -/
theorem runPlan_cons (la : layout) (s : DecodeStep) (ps : List DecodeStep) (c : Cursor) :
    runPlan la (s :: ps) c = runPlan la ps (applyStep la s c) := rfl

/-- After the sticky error is set, a read is a no-op. -/
theorem applyStep_of_err (la : layout) (s : DecodeStep) (c : Cursor) (h : c.err = true) :
    applyStep la s c = c := by
  simp [applyStep, h]

/-- After the sticky error is set, the whole remaining plan is a no-op. -/
theorem runPlan_of_err (la : layout) (ps : List DecodeStep) :
    ∀ c : Cursor, c.err = true → runPlan la ps c = c := by
  induction ps with
  | nil => intro c _; rfl
  | cons s ps ih =>
    intro c h
    rw [runPlan_cons, applyStep_of_err la s c h]
    exact ih c h

/-- An in-bounds read advances the cursor by exactly its width. -/
theorem applyStep_ok (la : layout) (s : DecodeStep) (c : Cursor) (h : c.err = false)
    (hw : c.pos + stepWidth la s ≤ c.len) :
    applyStep la s c = ⟨c.pos + stepWidth la s, c.len, false⟩ := by
  simp [applyStep, h, hw]

/-- An out-of-bounds read sets the sticky error and does not advance. -/
theorem applyStep_over (la : layout) (s : DecodeStep) (c : Cursor) (h : c.err = false)
    (hw : ¬ c.pos + stepWidth la s ≤ c.len) :
    applyStep la s c = ⟨c.pos, c.len, true⟩ := by
  simp [applyStep, h, hw]

/-- When the record is long enough, applying a plan advances the cursor
by exactly the total step width, with no error. -/
theorem runPlan_exact (la : layout) (ps : List DecodeStep) :
    ∀ c : Cursor, c.err = false →
      c.pos + (ps.map (stepWidth la)).sum ≤ c.len →
      runPlan la ps c = ⟨c.pos + (ps.map (stepWidth la)).sum, c.len, false⟩ := by
  induction ps with
  | nil =>
    intro c hc hle
    cases c with
    | mk p l e =>
      simp only at hc
      simp [runPlan, hc]
  | cons s ps ih =>
    intro c hc hle
    have hsum : (List.map (stepWidth la) (s :: ps)).sum
        = stepWidth la s + (ps.map (stepWidth la)).sum := by simp
    have hw : c.pos + stepWidth la s ≤ c.len := by rw [hsum] at hle; omega
    rw [runPlan_cons, applyStep_ok la s c hc hw]
    rw [ih ⟨c.pos + stepWidth la s, c.len, false⟩ rfl (by simp only; rw [hsum] at hle; omega)]
    simp [Cursor.mk.injEq, hsum, Nat.add_assoc]

/-- Plan application never moves the cursor past the record length. -/
theorem runPlan_pos_le (la : layout) (ps : List DecodeStep) :
    ∀ c : Cursor, c.pos ≤ c.len →
      (runPlan la ps c).pos ≤ c.len ∧ (runPlan la ps c).len = c.len := by
  induction ps with
  | nil => intro c h; exact ⟨h, rfl⟩
  | cons s ps ih =>
    intro c h
    have key : (applyStep la s c).pos ≤ c.len ∧ (applyStep la s c).len = c.len := by
      unfold applyStep
      split
      · exact ⟨h, rfl⟩
      · split
        · rename_i hw
          exact ⟨hw, rfl⟩
        · exact ⟨h, rfl⟩
    obtain ⟨k1, k2⟩ := key
    rw [runPlan_cons]
    obtain ⟨m1, m2⟩ := ih (applyStep la s c) (by rw [k2]; exact k1)
    exact ⟨by rw [k2] at m1; exact m1, by rw [m2, k2]⟩

/-- If a plan finishes with no error, the start cursor was error-free,
the whole width fit, and the cursor advanced by exactly the total step
width. -/
theorem runPlan_noerr (la : layout) (ps : List DecodeStep) :
    ∀ c : Cursor, c.pos ≤ c.len → (runPlan la ps c).err = false →
      c.err = false
      ∧ c.pos + (ps.map (stepWidth la)).sum ≤ c.len
      ∧ runPlan la ps c = ⟨c.pos + (ps.map (stepWidth la)).sum, c.len, false⟩ := by
  induction ps with
  | nil =>
    intro c hp he
    refine ⟨he, by simpa using hp, ?_⟩
    cases c with
    | mk p l e => simp_all [runPlan]
  | cons s ps ih =>
    intro c hp he
    by_cases hc : c.err = true
    · rw [runPlan_of_err la _ c hc] at he
      simp [hc] at he
    · have hc' : c.err = false := by simpa using hc
      by_cases hw : c.pos + stepWidth la s ≤ c.len
      · have h1 := applyStep_ok la s c hc' hw
        rw [runPlan_cons, h1] at he
        obtain ⟨-, h3, h4⟩ := ih ⟨c.pos + stepWidth la s, c.len, false⟩ (by simpa using hw) he
        simp only at h3
        refine ⟨hc', ?_, ?_⟩
        · simp only [List.map_cons, List.sum_cons]
          omega
        · rw [runPlan_cons, h1, h4]
          simp [Cursor.mk.injEq, List.map_cons, List.sum_cons, Nat.add_assoc]
      · have h1 := applyStep_over la s c hc' hw
        rw [runPlan_cons, h1, runPlan_of_err la ps _ rfl] at he
        simp at he

/-- The cursor threaded through the generated decode body is exactly the
plan application cursor. -/
theorem runReads_snd (la : layout) :
    ∀ (ps : List DecodeStep) (c : Cursor), (runReads la ps c).2 = runPlan la ps c := by
  intro ps
  induction ps with
  | nil => intro c; rfl
  | cons s ss ih =>
    intro c
    simp only [runReads, runPlan_cons]
    exact ih (applyStep la s c)

/-- The generated decode body assigns one value per step. -/
theorem runReads_len (la : layout) :
    ∀ (ps : List DecodeStep) (c : Cursor), (runReads la ps c).1.length = ps.length := by
  intro ps
  induction ps with
  | nil => intro c; rfl
  | cons s ss ih =>
    intro c
    simp [runReads, ih]

/-- In a by-code-sorted pair list, every element's code is bounded by the
last element's code. -/
theorem sorted_le_getLast :
    ∀ (l : List (String × Nat)), List.Sorted byCode l →
      ∀ x ∈ l, ∀ (h : l ≠ []), x.2 ≤ (l.getLast h).2 := by
  intro l
  induction l with
  | nil => intro _ x hx _; exact absurd hx (by simp)
  | cons a l ih =>
    intro hs x hx h
    obtain ⟨ha, hl⟩ := List.sorted_cons.mp hs
    cases l with
    | nil =>
      simp at hx
      subst hx
      exact Nat.le_refl _
    | cons b l' =>
      have hgl : (a :: b :: l').getLast h = (b :: l').getLast (by simp) :=
        List.getLast_cons (by simp)
      rw [hgl]
      rcases List.mem_cons.mp hx with h1 | h1
      · subst h1
        exact ha _ (List.getLast_mem _)
      · exact ih hl x h1 (by simp)

/-- A field the generator does not support makes the plan of any column
list containing it fail. -/
theorem planList_error_of_mem (ow : String) (fs : List column) (f : column)
    (hf : f ∈ fs) (e0 : GenFault) (hstep : decodeStepOf ow f = .error e0) :
    ∃ e, decodePlanList ow fs = .error e := by
  induction fs with
  | nil => exact absurd hf (by simp)
  | cons g gs ih =>
    cases h1 : decodeStepOf ow g with
    | error e => exact ⟨e, by simp only [decodePlanList, h1]⟩
    | ok s =>
      rcases List.mem_cons.mp hf with rfl | hf'
      · rw [hstep] at h1
        exact Except.noConfusion h1
      · obtain ⟨e, he⟩ := ih hf'
        exact ⟨e, by simp only [decodePlanList, h1, he]⟩

/-- A table whose plan fails makes the plans of any schema containing it
fail. -/
theorem plansOf_error_of_mem (ts : List tableInfo) (t : tableInfo) (ht : t ∈ ts)
    (e0 : GenFault) (hp : tablePlan t = .error e0) :
    ∃ e, plansOf ts = .error e := by
  induction ts with
  | nil => exact absurd ht (by simp)
  | cons u us ih =>
    cases h1 : tablePlan u with
    | error e => exact ⟨e, by simp only [plansOf, h1]⟩
    | ok ps =>
      rcases List.mem_cons.mp ht with rfl | ht'
      · rw [hp] at h1
        exact Except.noConfusion h1
      · obtain ⟨e, he⟩ := ih ht'
        cases h2 : plansOf us with
        | error e2 => exact ⟨e2, by simp only [plansOf, h1, h2]⟩
        | ok rest =>
          rw [h2] at he
          exact Except.noConfusion he

/-! ## Claim theorems -/

/-- C1: for every table the generated width formula is, in field order,
one term per field determined by its kind — FixedInt its constant size,
HeapIndex that heap's layout width, TableRef the target table's index
width, CodedRef the scheme's coded width, RowRange the same term as a
TableRef to its target — and the formula's value is the sum of those
terms (in field order) at any layout. -/
theorem c1_width_formula_terms (t : tableInfo) (la : layout) :
    widthTerms t = t.fields.map specWidthTerm
    ∧ widthSum t la = ((t.fields.map specWidthTerm).map (evalTerm la)).sum := by
  have h1 : widthTerms t = t.fields.map specWidthTerm :=
    List.map_congr_left fun c _ => widthTermOf_eq_spec c
  exact ⟨h1, by rw [widthSum, h1]⟩

/-- C4 counterexample: a schema with two tables of the same code 5 does
not make generation fail — the Catalog Builder performs no uniqueness
check, returns a catalog keeping both colliding tables, and the full run
produces artifacts. -/
theorem c4_counterexample_dup_codes_accepted :
    catalogBuilder [tA5, tB5] =
      .ok ⟨[("tableModuleA", 5), ("tableModuleB", 5)], 6, 6⟩
    ∧ isSuccess (generate [tA5, tB5]) = true := ⟨rfl, rfl⟩

/-- C4 amended: the Catalog Builder performs no duplicate-code check; for
every nonempty schema, duplicates included, it returns a catalog with one
(name, code) pair per table. -/
theorem c4_no_duplicate_check (ts : List tableInfo) (hne : ts ≠ []) :
    ∃ cat, catalogBuilder ts = .ok cat ∧ cat.pairs.length = ts.length := by
  have hperm : (sortedPairs ts).Perm (ts.map codePair) := List.perm_insertionSort byCode _
  have hnil : sortedPairs ts ≠ [] := by
    intro h0
    apply hne
    have h1 := hperm
    rw [h0] at h1
    exact List.map_eq_nil_iff.mp h1.symm.eq_nil
  obtain ⟨last, hlast⟩ : ∃ l, (sortedPairs ts).getLast? = some l :=
    ⟨_, List.getLast?_eq_getLast _ hnil⟩
  refine ⟨⟨sortedPairs ts, last.2 + 1, last.2 + 1⟩, ?_, ?_⟩
  · simp only [catalogBuilder, hlast]
  · simpa using hperm.length_eq

/-- C4 amended, witness at the duplicate-code schema. -/
theorem c4_no_duplicate_check_witness :
    ∃ cat, catalogBuilder [tA5, tB5] = .ok cat
      ∧ cat.pairs.length = [tA5, tB5].length :=
  c4_no_duplicate_check [tA5, tB5] (by simp)

/-- C5: the coded-index dispatch returns a table only for exported
(visible) tables, and for any tag that no exported table carries it
returns none — the generated switch has a nil default, never a fault. -/
theorem c5_coded_dispatch_visible_only (ts : List tableInfo) (tag : Nat) :
    ((∀ t ∈ ts, t.exported = true → t.code ≠ tag) → codedTable ts tag = none)
    ∧ ∀ nm, codedTable ts tag = some nm →
        ∃ t ∈ ts, t.exported = true ∧ t.code = tag ∧ t.name = nm := by
  induction ts with
  | nil =>
    exact ⟨fun _ => rfl, fun nm h => by simp [codedTable] at h⟩
  | cons t ts ih =>
    constructor
    · intro hall
      have hne : ¬(t.exported = true ∧ t.code = tag) := by
        intro hc
        exact hall t (List.mem_cons_self t ts) hc.1 hc.2
      rw [codedTable, if_neg hne]
      exact ih.1 fun x hx => hall x (List.mem_cons_of_mem t hx)
    · intro nm h
      rw [codedTable] at h
      by_cases hc : t.exported = true ∧ t.code = tag
      · rw [if_pos hc] at h
        injection h with h1
        exact ⟨t, List.mem_cons_self t ts, hc.1, hc.2, h1⟩
      · rw [if_neg hc] at h
        obtain ⟨x, hx, hrest⟩ := ih.2 nm h
        exact ⟨x, List.mem_cons_of_mem t hx, hrest⟩

/-- C5, witness: with one visible table of code 3 and an internal table of
code 9, tag 9 dispatches to none and tag 3 dispatches to the visible
table. -/
theorem c5_coded_dispatch_visible_only_witness :
    codedTable [tT3, tI9] 9 = none
    ∧ ∃ t ∈ [tT3, tI9], t.exported = true ∧ t.code = 3 ∧ t.name = "TypeDef" :=
  ⟨(c5_coded_dispatch_visible_only [tT3, tI9] 9).1 (by decide),
   (c5_coded_dispatch_visible_only [tT3, tI9] 3).2 "TypeDef" (by decide)⟩

/-- C6 counterexample: a schema declared with codes 7 then 3 (both
visible) yields accessor entries in declaration order [7, 3], which is
not ascending catalog-id order. -/
theorem c6_counterexample_registry_not_sorted :
    registryInit [tM7, tF3] = [("MethodDef", 7), ("FieldDef", 3)]
    ∧ ¬ List.Sorted (fun a b : String × Nat => a.2 ≤ b.2) (registryInit [tM7, tF3]) :=
  ⟨rfl, by decide⟩

/-- C6 amended: the Registry Builder emits exactly one accessor per
visible table, each wired to that table's catalog id, in schema
declaration order — which is ascending id order only when the schema
itself lists tables in ascending code order. -/
theorem c6_registry_schema_order (ts : List tableInfo) :
    registryInit ts = (ts.filter fun t => t.exported).map (fun t => (t.name, t.code))
    ∧ (List.Sorted (fun a b : tableInfo => a.code ≤ b.code) ts →
        List.Sorted (fun a b : String × Nat => a.2 ≤ b.2) (registryInit ts)) := by
  have h1 : registryInit ts
      = (ts.filter fun t => t.exported).map (fun t => (t.name, t.code)) := by
    induction ts with
    | nil => rfl
    | cons t ts ih =>
      by_cases h : t.exported = true
      · simp [registryInit, h, List.filter_cons, ih]
      · simp [registryInit, h, List.filter_cons, ih]
  refine ⟨h1, fun hs => ?_⟩
  rw [h1]
  exact List.pairwise_map.mpr (List.Pairwise.filter _ hs)

/-- C6 amended, witness: on a schema declared in ascending code order the
registry entries are in ascending id order. -/
theorem c6_registry_schema_order_witness :
    registryInit [tF3, tM7]
      = ([tF3, tM7].filter fun t => t.exported).map (fun t => (t.name, t.code))
    ∧ List.Sorted (fun a b : String × Nat => a.2 ≤ b.2) (registryInit [tF3, tM7]) :=
  ⟨(c6_registry_schema_order [tF3, tM7]).1,
   (c6_registry_schema_order [tF3, tM7]).2 (by decide)⟩

/-- C9: on a schema with zero tables the Catalog Builder indexes the last
element of the empty sorted list — the index-out-of-range panic, modelled
by `GenFault.emptySchemaPanic` — instead of returning a catalog, and the
whole generation run aborts the same way. -/
theorem c9_empty_schema_panics :
    catalogBuilder ([] : List tableInfo) = .error .emptySchemaPanic
    ∧ generate ([] : List tableInfo) = .error .emptySchemaPanic := ⟨rfl, rfl⟩

/-- C10: the generated width method returns uint8, so its value is the
plain sum of the field width terms reduced modulo 2^8, and any table and
layout whose true record width exceeds 255 bytes get a wrapped width
different from the true width, with no error. -/
theorem c10_width_wraps_mod_256 (t : tableInfo) (la : layout) :
    genWidth t la = widthSum t la % 256
    ∧ (255 < widthSum t la → genWidth t la ≠ widthSum t la) := by
  have h := foldl_mod256 ((widthTerms t).map (evalTerm la)) 0 (by omega)
  have h1 : genWidth t la = widthSum t la % 256 := by
    rw [genWidth, widthSum]
    simpa using h
  refine ⟨h1, fun hgt => ?_⟩
  have h2 : widthSum t la % 256 < 256 := Nat.mod_lt _ (by omega)
  rw [h1]
  omega

/-- C10, witness: a table of two String columns under a layout with a
128-byte String index width has true width 256 and generated width 0. -/
theorem c10_width_wraps_mod_256_witness :
    genWidth tWide laWrap = widthSum tWide laWrap % 256
    ∧ genWidth tWide laWrap ≠ widthSum tWide laWrap :=
  ⟨(c10_width_wraps_mod_256 tWide laWrap).1,
   (c10_width_wraps_mod_256 tWide laWrap).2 (by decide)⟩

/-- C2: a table's generated decode plan has exactly one step per field,
in declared field order, each step reads exactly the width term the Width
Formula Builder assigned to that field, plan application never moves the
cursor past the record boundary, and on a record at least as long as the
table's width formula value the cursor advances by exactly that value
with no error. -/
theorem c2_decode_plan_cursor (t : tableInfo) (ps : List DecodeStep)
    (h : tablePlan t = .ok ps) :
    ps.length = t.fields.length
    ∧ List.Forall₂ (fun f s => decodeStepOf t.tableName f = .ok s) t.fields ps
    ∧ (∀ la, ps.map (stepWidth la) = t.fields.map fun f => evalTerm la (widthTermOf f))
    ∧ (∀ la n, (runPlan la ps ⟨0, n, false⟩).pos ≤ n)
    ∧ ∀ la n, widthSum t la ≤ n →
        runPlan la ps ⟨0, n, false⟩ = ⟨widthSum t la, n, false⟩ := by
  have hf := planList_forall₂ t.tableName t.fields ps h
  have hw : ∀ la, ps.map (stepWidth la) = t.fields.map fun f => evalTerm la (widthTermOf f) :=
    fun la => plan_widths la t.tableName t.fields ps h
  refine ⟨hf.length_eq.symm, hf, hw, ?_, ?_⟩
  · intro la n
    exact (runPlan_pos_le la ps ⟨0, n, false⟩ (by simp)).1
  · intro la n hle
    have hs := plan_sum_width la t ps h
    rw [runPlan_exact la ps ⟨0, n, false⟩ rfl (by simp only; omega)]
    simp [hs]

/-- C2, witness: the three-column table decodes with one step per column
and the cursor lands exactly at the table's width. -/
theorem c2_decode_plan_cursor_witness :
    [DecodeStep.uint 2, DecodeStep.string, DecodeStep.index "tableTypeDef"].length
        = tT3.fields.length
    ∧ runPlan laSmall [DecodeStep.uint 2, DecodeStep.string, DecodeStep.index "tableTypeDef"]
        ⟨0, 6, false⟩ = ⟨widthSum tT3 laSmall, 6, false⟩ :=
  ⟨(c2_decode_plan_cursor tT3 [.uint 2, .string, .index "tableTypeDef"] rfl).1,
   (c2_decode_plan_cursor tT3 [.uint 2, .string, .index "tableTypeDef"] rfl).2.2.2.2
     laSmall 6 (by decide)⟩

/-- C3: on a nonempty schema with unique codes in [0, 255] the Catalog
Builder returns the (name, code) pairs as a strictly-ascending-by-code
permutation of the schema's pairs, with tableMax one more than the
maximum code, tableNone equal to tableMax, and the sentinel distinct from
every real table code. -/
theorem c3_catalog_sorted_sentinel (ts : List tableInfo) (hne : ts ≠ [])
    (hnd : (ts.map fun t => t.code).Nodup) (_hrange : ∀ t ∈ ts, t.code ≤ 255) :
    ∃ cat, catalogBuilder ts = .ok cat
      ∧ cat.pairs.Perm (ts.map codePair)
      ∧ List.Sorted (fun a b : String × Nat => a.2 < b.2) cat.pairs
      ∧ (∀ t ∈ ts, t.code < cat.tableMax)
      ∧ (∃ t ∈ ts, cat.tableMax = t.code + 1)
      ∧ cat.tableNone = cat.tableMax
      ∧ ∀ t ∈ ts, cat.tableNone ≠ t.code := by
  have hperm : (sortedPairs ts).Perm (ts.map codePair) := List.perm_insertionSort byCode _
  have hsorted : List.Sorted byCode (sortedPairs ts) :=
    List.sorted_insertionSort byCode (ts.map codePair)
  have hnil : sortedPairs ts ≠ [] := by
    intro h0
    apply hne
    have h1 := hperm
    rw [h0] at h1
    exact List.map_eq_nil_iff.mp h1.symm.eq_nil
  obtain ⟨last, hlast⟩ : ∃ l, (sortedPairs ts).getLast? = some l :=
    ⟨_, List.getLast?_eq_getLast _ hnil⟩
  have hgl : (sortedPairs ts).getLast hnil = last := by
    rw [List.getLast?_eq_getLast _ hnil] at hlast
    exact Option.some.inj hlast
  have hle_last : ∀ x ∈ sortedPairs ts, x.2 ≤ last.2 := by
    intro x hx
    rw [← hgl]
    exact sorted_le_getLast (sortedPairs ts) hsorted x hx hnil
  have hlt : ∀ t ∈ ts, t.code < last.2 + 1 := by
    intro t ht
    have hx : codePair t ∈ sortedPairs ts :=
      hperm.mem_iff.mpr (List.mem_map_of_mem codePair ht)
    have := hle_last _ hx
    simp only [codePair] at this
    omega
  have hstrict : List.Sorted (fun a b : String × Nat => a.2 < b.2) (sortedPairs ts) := by
    have hndp : ((sortedPairs ts).map Prod.snd).Nodup := by
      have hmapeq : (ts.map codePair).map Prod.snd = ts.map fun t => t.code := by
        rw [List.map_map]
        rfl
      have hp2 : ((sortedPairs ts).map Prod.snd).Perm ((ts.map codePair).map Prod.snd) :=
        hperm.map Prod.snd
      rw [hmapeq] at hp2
      exact hp2.nodup_iff.mpr hnd
    have hne2 : (sortedPairs ts).Pairwise fun a b => a.2 ≠ b.2 :=
      List.pairwise_map.mp hndp
    have hsorted' : (sortedPairs ts).Pairwise byCode := hsorted
    exact (List.Pairwise.and hsorted' hne2).imp fun hab =>
      lt_of_le_of_ne hab.1 hab.2
  refine ⟨⟨sortedPairs ts, last.2 + 1, last.2 + 1⟩, ?_, hperm, hstrict, hlt, ?_, rfl, ?_⟩
  · simp only [catalogBuilder, hlast]
  · have hm : last ∈ sortedPairs ts := by
      rw [← hgl]
      exact List.getLast_mem hnil
    obtain ⟨t, ht, hpt⟩ := List.mem_map.mp (hperm.mem_iff.mp hm)
    refine ⟨t, ht, ?_⟩
    have hts : t.code = last.2 := by
      rw [← hpt]
      rfl
    show last.2 + 1 = t.code + 1
    omega
  · intro t ht
    have := hlt t ht
    show last.2 + 1 ≠ t.code
    omega

/-- C3, witness: a two-table schema with codes 3 and 7. -/
theorem c3_catalog_sorted_sentinel_witness :
    ∃ cat, catalogBuilder [tM7, tF3] = .ok cat
      ∧ cat.pairs.Perm ([tM7, tF3].map codePair)
      ∧ List.Sorted (fun a b : String × Nat => a.2 < b.2) cat.pairs
      ∧ (∀ t ∈ [tM7, tF3], t.code < cat.tableMax)
      ∧ (∃ t ∈ [tM7, tF3], cat.tableMax = t.code + 1)
      ∧ cat.tableNone = cat.tableMax
      ∧ ∀ t ∈ [tM7, tF3], cat.tableNone ≠ t.code :=
  c3_catalog_sorted_sentinel [tM7, tF3] (by simp) (by decide) (by decide)

/-- C7: decode either fails, exposing nothing, or succeeds with one value
per field — the generated decode returns the cursor's final sticky error
state, the caller exposes a record iff that state is clean, an exposed
record has exactly one value per field, and a record shorter than the
table's width exposes nothing. -/
theorem c7_decode_error_propagation (t : tableInfo) (ps : List DecodeStep)
    (h : tablePlan t = .ok ps) (la : layout) (n : Nat) :
    (decodeMethod la ps ⟨0, n, false⟩).2 = (runPlan la ps ⟨0, n, false⟩).err
    ∧ (readRecord la ps ⟨0, n, false⟩ = none
        ↔ (runPlan la ps ⟨0, n, false⟩).err = true)
    ∧ (∀ vs, readRecord la ps ⟨0, n, false⟩ = some vs →
        vs.length = t.fields.length ∧ (runPlan la ps ⟨0, n, false⟩).err = false)
    ∧ (n < widthSum t la → readRecord la ps ⟨0, n, false⟩ = none) := by
  have hm : (decodeMethod la ps ⟨0, n, false⟩).2 = (runPlan la ps ⟨0, n, false⟩).err := by
    simp [decodeMethod, runReads_snd]
  refine ⟨hm, ?_, ?_, ?_⟩
  · cases he : (runPlan la ps ⟨0, n, false⟩).err with
    | false => simp [readRecord, hm, he]
    | true => simp [readRecord, hm, he]
  · intro vs hv
    cases he : (runPlan la ps ⟨0, n, false⟩).err with
    | true =>
      rw [readRecord, if_pos (by rw [hm]; exact he)] at hv
      exact absurd hv (by simp)
    | false =>
      rw [readRecord, if_neg (by rw [hm]; simp [he])] at hv
      injection hv with hv1
      subst hv1
      refine ⟨?_, rfl⟩
      rw [decodeMethod]
      simp only [runReads_len]
      exact (planList_forall₂ t.tableName t.fields ps h).length_eq.symm
  · intro hlt
    have herr : (runPlan la ps ⟨0, n, false⟩).err = true := by
      by_contra hcon
      have he' : (runPlan la ps ⟨0, n, false⟩).err = false := by simpa using hcon
      obtain ⟨-, h2, -⟩ := runPlan_noerr la ps ⟨0, n, false⟩ (by simp) he'
      simp only at h2
      rw [plan_sum_width la t ps h] at h2
      omega
    simp [readRecord, hm, herr]

/-- C7, witness: the three-column table with a 4-byte record (shorter
than its 6-byte width) exposes nothing; with a 6-byte record the exposure
condition is the clean error state. -/
theorem c7_decode_error_propagation_witness :
    (readRecord laSmall [DecodeStep.uint 2, DecodeStep.string, DecodeStep.index "tableTypeDef"]
        ⟨0, 4, false⟩ = none)
    ∧ (readRecord laSmall [DecodeStep.uint 2, DecodeStep.string, DecodeStep.index "tableTypeDef"]
          ⟨0, 6, false⟩ = none
        ↔ (runPlan laSmall [DecodeStep.uint 2, DecodeStep.string, DecodeStep.index "tableTypeDef"]
            ⟨0, 6, false⟩).err = true) :=
  ⟨(c7_decode_error_propagation tT3 [.uint 2, .string, .index "tableTypeDef"] rfl
      laSmall 4).2.2.2 (by decide),
   (c7_decode_error_propagation tT3 [.uint 2, .string, .index "tableTypeDef"] rfl
      laSmall 6).2.1⟩

/-- C8 counterexample: on a table with a fixed-int field of the
unsupported size 3 the Width Formula Builder does not fail — it silently
emits the constant term 3 — while the Decode Plan Builder is where
generation aborts. -/
theorem c8_counterexample_width_builder_silent :
    widthTerms tBad = [WidthTerm.const 3]
    ∧ tablePlan tBad = .error (.unsupportedUintSize 3)
    ∧ generate [tBad] = .error (.unsupportedUintSize 3) := ⟨rfl, rfl, rfl⟩

/-- C8 amended: a field the generator does not support (a fixed-width
integer whose size is not 1, 2 or 4 bytes) aborts generation with a fatal
error in the Decode Plan Builder before any artifact is written, while
the Width Formula Builder performs no check and still emits one term per
field, the unsupported size as a silent constant term. -/
theorem c8_unsupported_size_aborts_decode_builder (t : tableInfo) (f : column)
    (hf : f ∈ t.fields) (hk : f.columnType = .uint)
    (hs : ¬(f.size = 1 ∨ f.size = 2 ∨ f.size = 4)) :
    (widthTerms t).length = t.fields.length
    ∧ (∃ e, tablePlan t = .error e)
    ∧ ∀ ts, t ∈ ts → ∃ e, generate ts = .error e := by
  have hstep : decodeStepOf t.tableName f = .error (.unsupportedUintSize f.size) := by
    simp only [decodeStepOf, hk]
    rw [if_neg hs]
  have hplan : ∃ e, tablePlan t = .error e :=
    planList_error_of_mem t.tableName t.fields f hf _ hstep
  refine ⟨by simp [widthTerms], hplan, ?_⟩
  intro ts hts
  obtain ⟨e0, he0⟩ := hplan
  obtain ⟨e1, he1⟩ := plansOf_error_of_mem ts t hts e0 he0
  cases hc : catalogBuilder ts with
  | error e => exact ⟨e, by simp only [generate, hc]⟩
  | ok cat => exact ⟨e1, by simp only [generate, hc, he1]⟩

/-- C8 amended, witness: the size-3 table. -/
theorem c8_unsupported_size_aborts_decode_builder_witness :
    (widthTerms tBad).length = tBad.fields.length
    ∧ (∃ e, tablePlan tBad = .error e)
    ∧ (∃ e, generate [tBad] = .error e) :=
  ⟨(c8_unsupported_size_aborts_decode_builder tBad colU3 (by decide) rfl (by decide)).1,
   (c8_unsupported_size_aborts_decode_builder tBad colU3 (by decide) rfl (by decide)).2.1,
   (c8_unsupported_size_aborts_decode_builder tBad colU3 (by decide) rfl (by decide)).2.2
     [tBad] (by simp)⟩

end GenLayout
